import Mathlib

/-!
Verification of the sandboxed-filesystem server's core components against a
shallow embedding of its source code.

Embedded components:
* the path sandbox (`normalize_path` in `src/core/main.py`),
* the in-memory file-content cache (`cleanup_cache`, `add_to_file_cache`,
  `get_from_file_cache`, `invalidate_cache_for_path` in `src/core/main.py`),
* the resolution-memo behaviour of `write_file`, `create_directory`, `move_path`,
* the metadata store (`delete_metadata`, `search_metadata` in `src/db/db.py`),
* the watcher's `notify_change` (`src/utils/watcher.py`),
* the ignore-pattern matcher (`src/utils/ignore_patterns.py`).

Modelling conventions:
* Python timestamps (floats) are modelled by integers; every comparison the
  code performs on timestamps is an order comparison, so a linearly ordered
  time domain is faithful.  The single place the code divides timestamps
  (the eviction score) is modelled by exact cross-multiplied comparison of
  the fractions, which agrees with real-number division for the positive
  access counts occurring in every entry the code builds.
* Python dicts are modelled by association lists in insertion order
  (updating an existing key keeps its position, as in Python).
* The filesystem is modelled by an association list from path to mtime.
-/

set_option autoImplicit false

namespace Spec2Proof

/-! ### Generic helpers over strings as character lists

`String.startsWith`, `String.splitOn` etc. are position-based in core Lean and
do not reduce well in the kernel, so the Python string operations are modelled
directly over `String.data`. -/

/-- Models Python `s.startswith(pre)`. -/
def strStartsWith (s pre : String) : Bool :=
  pre.data.isPrefixOf s.data

/-- Models Python `s.endswith(suf)`. -/
def strEndsWith (s suf : String) : Bool :=
  suf.data.isSuffixOf s.data

/-- Models Python `needle in hay` (substring containment). -/
def listIsInfixOfChars (needle : List Char) : List Char → Bool
  | [] => needle.isEmpty
  | c :: rest => needle.isPrefixOf (c :: rest) || listIsInfixOfChars needle rest

/-- Models Python `needle in hay` on strings. -/
def strContains (hay needle : String) : Bool :=
  listIsInfixOfChars needle.data hay.data

/-- Models Python `s.split('/')`. -/
def splitSlash (s : String) : List String :=
  (List.splitOn '/' s.data).map String.mk

/-- Models Python `s.lower()`. -/
def strLower (s : String) : String :=
  String.mk (s.data.map Char.toLower)

/-- Models Python `len(content.encode('utf-8'))`: the UTF-8 byte length. -/
def utf8Len (l : List Char) : Nat :=
  (l.map Char.utf8Size).sum

/-! ### Path sandbox (`normalize_path`, src/core/main.py lines 238-259)

A path is represented by its components.  `RawPath` is a user-supplied path:
a flag saying whether it is absolute plus its raw components, which may still
contain `"~"` (only as the leading component), `".."`, `"."` or `""`. -/

/-- A user-supplied path: absolute flag plus raw components. -/
structure RawPath where
  absolute : Bool
  comps : List String
deriving DecidableEq

/-- Models `os.path.expanduser`: a leading `"~"` component of a relative path
is replaced by the home directory (the `"~user"` form is not modelled). -/
def expanduser (home : List String) (p : RawPath) : RawPath :=
  match p with
  | ⟨false, "~" :: rest⟩ => ⟨true, home ++ rest⟩
  | _ => p

/-- One step of lexical resolution: `".."` pops the last component (a no-op at
the root, as in POSIX), `"."` and empty components are dropped. -/
def resolveStep (acc : List String) (c : String) : List String :=
  if c = ".." then acc.dropLast
  else if c = "." ∨ c = "" then acc
  else acc ++ [c]

/-- Models `pathlib.Path.resolve()` on a symlink-free filesystem: make the
path absolute against the current working directory and resolve `".."`, `"."`
components lexically. -/
def resolvePath (cwd : List String) (p : RawPath) : List String :=
  ((if p.absolute then [] else cwd) ++ p.comps).foldl resolveStep []

/-- Models `requested.relative_to(allowed_path)` succeeding: for two resolved
absolute paths this holds iff the components of `allowed` are a prefix of the
components of `requested` (equality included). -/
def relativeToOk (requested allowed : List String) : Bool :=
  allowed.isPrefixOf requested

/-- Models `normalize_path` (src/core/main.py lines 238-259): resolve the
requested path, then return it if some allowed root contains it, and fail with
`AccessDenied` (modelled by `none`) otherwise. -/
def normalize_path (allowed : List (List String)) (cwd home : List String)
    (requested_path : RawPath) : Option (List String) :=
  let requested := resolvePath cwd (expanduser home requested_path)
  if allowed.any (fun allowed_path => relativeToOk requested allowed_path) then
    some requested
  else
    none

/-! ### File-content cache (src/core/main.py lines 67-79 and 277-414) -/

/-- Cache configuration constants (src/core/main.py lines 68-70, 79). -/
def FILE_CACHE_MAX_ENTRIES : Nat := 100

/-- 100 MB total cache budget. -/
def FILE_CACHE_MAX_SIZE : Nat := 100 * 1024 * 1024

/-- 10 MB per-entry budget. -/
def FILE_CACHE_ENTRY_MAX_SIZE : Nat := 10 * 1024 * 1024

/-- Cleanup rate limit in seconds (src/core/main.py line 79). -/
def CACHE_CLEANUP_INTERVAL : Int := 300

/-- One cached file: the value dict built at src/core/main.py lines 357-363. -/
structure CacheEntry where
  content : String
  modified_time : Int
  last_access : Int
  size : Nat
  access_count : Nat
deriving DecidableEq

/-- The cache globals: `file_cache`, `file_cache_size`, `last_cache_cleanup`. -/
structure CacheState where
  file_cache : List (String × CacheEntry)
  file_cache_size : Int
  last_cache_cleanup : Int
deriving DecidableEq

/-- The filesystem as seen by `cleanup_cache`: maps a path to its current
mtime when the file exists and is statable. -/
abbrev FileSystem := List (String × Int)

/-- Models `path in file_cache` / `file_cache[path]` on the dict. -/
def lookupEntry (p : String) : List (String × CacheEntry) → Option CacheEntry
  | [] => none
  | (k, e) :: rest => if k = p then some e else lookupEntry p rest

/-- Models `del file_cache[path]` (removes the entry for the key). -/
def eraseKey (p : String) : List (String × CacheEntry) → List (String × CacheEntry)
  | [] => []
  | (k, e) :: rest => if k = p then rest else (k, e) :: eraseKey p rest

/-- Models `file_cache[path] = entry`: overwrite in place or append. -/
def setEntry (p : String) (v : CacheEntry) :
    List (String × CacheEntry) → List (String × CacheEntry)
  | [] => [(p, v)]
  | (k, e) :: rest => if k = p then (p, v) :: rest else (k, e) :: setEntry p v rest

/-- The idiom `content_size = file_cache[p]['size']; del file_cache[p];
file_cache_size -= content_size`, used by every removal site. -/
def removePath (p : String) (st : CacheState) : CacheState :=
  match lookupEntry p st.file_cache with
  | some e =>
    { st with
      file_cache := eraseKey p st.file_cache
      file_cache_size := st.file_cache_size - (e.size : Int) }
  | none => st

/-- The predicate deciding whether `cleanup_cache` collects an entry into
`paths_to_remove` (src/core/main.py lines 297-317): the file is gone or
unstattable, its on-disk mtime is newer than the cached one, or the entry has
not been accessed for more than an hour. -/
def cleanupStale (fs : FileSystem) (now : Int) (p : String) (e : CacheEntry) : Bool :=
  match fs.lookup p with
  | none => true
  | some current_modified_time =>
    decide (e.modified_time < current_modified_time) ||
    decide ((3600 : Int) < now - e.last_access)

/-- Models `cleanup_cache` (src/core/main.py lines 277-323). -/
def cleanup_cache (fs : FileSystem) (now : Int) (st : CacheState) : CacheState :=
  if now - st.last_cache_cleanup < CACHE_CLEANUP_INTERVAL then st
  else
    let paths_to_remove :=
      (st.file_cache.filter (fun pe => cleanupStale fs now pe.1 pe.2)).map Prod.fst
    paths_to_remove.foldl (fun s p => removePath p s)
      { st with last_cache_cleanup := now }

/-- Models the comparison of eviction scores
`(now - last_access) * (1 / access_count)` (src/core/main.py line 350).
The real-valued scores are compared exactly by cross-multiplication, which
coincides with float division for the positive access counts every entry
the code constructs carries. -/
def evictionScoreLt (now : Int) (e1 e2 : CacheEntry) : Bool :=
  decide ((now - e1.last_access) * (e2.access_count : Int) <
          (now - e2.last_access) * (e1.access_count : Int))

/-- Models `min(file_cache.items(), key=score)` (src/core/main.py lines
348-351): Python's `min` keeps the first item attaining the minimum. -/
def minByScore (now : Int) :
    List (String × CacheEntry) → Option (String × CacheEntry)
  | [] => none
  | x :: rest =>
    some (rest.foldl (fun best y => if evictionScoreLt now y.2 best.2 then y else best) x)

/-- Models the eviction `while` loop of `add_to_file_cache` (src/core/main.py
lines 344-354).  The fuel argument is an upper bound on the number of
iterations; each iteration removes one entry, so fuel equal to the cache size
gives exactly the `while` loop's semantics. -/
def evictLoop (now : Int) (content_size : Nat) : Nat → CacheState → CacheState
  | 0, st => st
  | fuel + 1, st =>
    if (FILE_CACHE_MAX_ENTRIES ≤ st.file_cache.length ∨
        (FILE_CACHE_MAX_SIZE : Int) < st.file_cache_size + (content_size : Int)) ∧
        st.file_cache ≠ [] then
      match minByScore now st.file_cache with
      | some (oldest_path, _) => evictLoop now content_size fuel (removePath oldest_path st)
      | none => st
    else st

/-- Models `add_to_file_cache` (src/core/main.py lines 325-365). -/
def add_to_file_cache (fs : FileSystem) (now : Int) (st : CacheState)
    (path content : String) (modified_time : Int) : Bool × CacheState :=
  let content_size := utf8Len content.data
  if FILE_CACHE_ENTRY_MAX_SIZE < content_size then
    (false, st)
  else
    let st := cleanup_cache fs now st
    let st := evictLoop now content_size st.file_cache.length st
    (true,
      { st with
        file_cache := setEntry path
          { content := content
            modified_time := modified_time
            last_access := now
            size := content_size
            access_count := 1 } st.file_cache
        file_cache_size := st.file_cache_size + (content_size : Int) })

/-- Models `get_from_file_cache` (src/core/main.py lines 367-389). -/
def get_from_file_cache (now : Int) (st : CacheState) (path : String)
    (modified_time : Int) : Option String × CacheState :=
  match lookupEntry path st.file_cache with
  | some e =>
    if modified_time ≤ e.modified_time then
      (some e.content,
        { st with
          file_cache := setEntry path
            { e with last_access := now, access_count := e.access_count + 1 }
            st.file_cache })
    else
      (none, removePath path st)
  | none => (none, st)

/-- Models `invalidate_cache_for_path` (src/core/main.py lines 391-414). -/
def invalidate_cache_for_path (st : CacheState) (path : String) : CacheState :=
  let st := removePath path st
  let path_with_slash := path ++ "/"
  let paths_to_remove :=
    (st.file_cache.filter (fun pe => strStartsWith pe.1 path_with_slash)).map Prod.fst
  paths_to_remove.foldl (fun s p => removePath p s) st

/-- One external cache operation, for stating properties of arbitrary
operation sequences. -/
inductive CacheOp where
  | put (fs : FileSystem) (now : Int) (path content : String) (mtime : Int)
  | get (now : Int) (path : String) (mtime : Int)
  | invalidate (path : String)
  | cleanup (fs : FileSystem) (now : Int)

/-- Run one cache operation, keeping only the state. -/
def runOp (st : CacheState) : CacheOp → CacheState
  | .put fs now p c t => (add_to_file_cache fs now st p c t).2
  | .get now p t => (get_from_file_cache now st p t).2
  | .invalidate p => invalidate_cache_for_path st p
  | .cleanup fs now => cleanup_cache fs now st

/-- Run a sequence of cache operations. -/
def runOps (ops : List CacheOp) (st : CacheState) : CacheState :=
  ops.foldl runOp st

/-- The module-load state: empty cache, zero size counter (src/core/main.py
lines 71-72, 78); `t0` is the process start time. -/
def initialCacheState (t0 : Int) : CacheState :=
  { file_cache := [], file_cache_size := 0, last_cache_cleanup := t0 }

/-- Total bytes actually held by the cache: the sum of the recorded sizes. -/
def sumSizes (l : List (String × CacheEntry)) : Nat :=
  (l.map (fun pe => pe.2.size)).sum

/-! ### Resolution-memo behaviour of the mutating endpoints (C5)

`normalize_path` is wrapped in `functools.lru_cache`; the slice of each
mutating endpoint relevant to that memo is modelled on a state holding the
set of existing paths and the memo contents. -/

/-- Existing paths plus the `normalize_path` memo (input string → resolution). -/
structure SandboxState where
  existing : List String
  memo : List (String × String)
deriving DecidableEq

/-- The slice of `write_file` (src/core/main.py lines 1002-1114) that touches
the filesystem and the resolution memo: the write itself creates the file when
it is absent, and only afterwards (lines 1111-1114) does the code test
`not path.exists()` before calling `normalize_path.cache_clear()`. -/
def write_file_memo (st : SandboxState) (path : String) : SandboxState :=
  let existing := if st.existing.contains path then st.existing else st.existing ++ [path]
  let memo := if existing.contains path then st.memo else []
  { existing := existing, memo := memo }

/-- The slice of `create_directory` (src/core/main.py lines 1307-1328): the
directory is created; no `normalize_path.cache_clear()` call occurs. -/
def create_directory_memo (st : SandboxState) (path : String) : SandboxState :=
  { st with
    existing := if st.existing.contains path then st.existing else st.existing ++ [path] }

/-- The slice of `move_path` (src/core/main.py lines 1758-1806): the move
renames the source to the destination and line 1782 clears the memo
unconditionally. -/
def move_path_memo (st : SandboxState) (source destination : String) : SandboxState :=
  { existing := (st.existing.filter (fun p => p ≠ source)) ++ [destination]
    memo := [] }

/-! ### Metadata store (src/db/db.py) -/

/-- One `file_metadata` row (src/db/db.py model); the fields not consulted by
`delete_metadata`/`search_metadata` filters are omitted. -/
structure FileMetadata where
  path : String
  parent_dir : String
  name : String
  extension : Option String
  is_directory : Bool
  size_bytes : Option Int
  modified_time : Int
deriving DecidableEq

/-- The store in insertion order (the table has a unique key on `path`). -/
abbrev MetadataStore := List FileMetadata

/-- Models the point query `select ... where path == p` feeding
`scalar_one_or_none` (unique key, so first match is the match). -/
def findRecord (p : String) : MetadataStore → Option FileMetadata
  | [] => none
  | r :: rest => if r.path = p then some r else findRecord p rest

/-- Models `delete_metadata` (src/db/db.py lines 234-283): delete the exact
record if present; when it was a directory, also delete every record whose
path starts with `p ++ "/"`; return whether the exact record existed. -/
def delete_metadata (p : String) (store : MetadataStore) : Bool × MetadataStore :=
  match findRecord p store with
  | none => (false, store)
  | some metadata =>
    let store := store.eraseP (fun r => r.path == p)
    if metadata.is_directory then
      (true, store.filter (fun child => !strStartsWith child.path (p ++ "/")))
    else
      (true, store)

/-- The optional filters of `search_metadata` (src/db/db.py lines 285-314).
Python treats `query=""` and `extensions=[]` as absent (truthiness test);
absent filters are modelled by `none`.  The source calls the last filter
`path_prefix`. -/
structure SearchFilters where
  query : Option String
  extensions : Option (List String)
  is_directory : Option Bool
  min_size : Option Int
  max_size : Option Int
  modified_after : Option Int
  modified_before : Option Int
  path_pfx : Option String
deriving DecidableEq

/-- The conjunction of the filter clauses of `search_metadata` (src/db/db.py
lines 319-349).  SQL `NULL` comparisons are falsy: a row with `NULL`
`size_bytes` or `extension` fails a size filter or extension filter. -/
def matchesFilters (f : SearchFilters) (m : FileMetadata) : Bool :=
  (match f.query with
   | none => true
   | some q => strContains m.name q) &&
  (match f.extensions with
   | none => true
   | some exts =>
     let ext_list := exts.map (fun ext =>
       if strStartsWith ext "." then strLower ext else "." ++ strLower ext)
     match m.extension with
     | none => false
     | some e => ext_list.contains e) &&
  (match f.is_directory with
   | none => true
   | some b => m.is_directory == b) &&
  (match f.min_size with
   | none => true
   | some n => match m.size_bytes with | none => false | some s => decide (n ≤ s)) &&
  (match f.max_size with
   | none => true
   | some n => match m.size_bytes with | none => false | some s => decide (s ≤ n)) &&
  (match f.modified_after with
   | none => true
   | some t => decide (t ≤ m.modified_time)) &&
  (match f.modified_before with
   | none => true
   | some t => decide (m.modified_time ≤ t)) &&
  (match f.path_pfx with
   | none => true
   | some pre => (m.path == pre) || strStartsWith m.path (pre ++ "/"))

/-- Models `search_metadata` (src/db/db.py lines 285-359): apply the filters,
then `.offset(offset).limit(limit)` over the store's stable insertion order. -/
def search_metadata (store : MetadataStore) (f : SearchFilters)
    (limit offset : Nat) : MetadataStore :=
  ((store.filter (matchesFilters f)).drop offset).take limit

/-! ### Watcher change notification (src/utils/watcher.py lines 169-214)

Paths are represented by their component lists so that `path.parents` is
computable; `modified_paths` (a Python set) is modelled as a duplicate-free
list, `path_change_queue` as a list with `deque(maxlen=10000)` semantics. -/

/-- The queue bound (src/utils/watcher.py line 32). -/
def QUEUE_MAXLEN : Nat := 10000

/-- The watcher bookkeeping touched by `notify_change`. -/
structure WatcherState where
  modified_paths : List (List String)
  path_change_queue : List (List String)
deriving DecidableEq

/-- Models `deque(maxlen).append(x)`: at capacity the oldest (leftmost) entry
is dropped silently. -/
def dequeAppend (maxlen : Nat) (q : List (List String)) (x : List String) :
    List (List String) :=
  if q.length < maxlen then q ++ [x] else q.tail ++ [x]

/-- Helper for `parentsOf`: structural recursion on a step counter (the
caller passes the list length, which bounds the recursion depth). -/
def parentsOfAux : Nat → List String → List (List String)
  | 0, _ => []
  | _, [] => []
  | fuel + 1, l => l.dropLast :: parentsOfAux fuel l.dropLast

/-- Models `pathlib.Path(p).parents` for a path given by its components: all
proper ancestors, nearest first, ending with the root `[]`. -/
def parentsOf (l : List String) : List (List String) :=
  parentsOfAux l.length l

/-- Models `set.add` on the pending set. -/
def addIfAbsent (l : List (List String)) (x : List String) : List (List String) :=
  if x ∈ l then l else l ++ [x]

/-- Models `notify_change` (src/utils/watcher.py lines 169-214).  `is_dir`
models the `path.is_dir()` filesystem test.  The watcher-startup tail of the
function touches neither `modified_paths` nor the queue. -/
def notify_change (is_dir : List String → Bool) (st : WatcherState)
    (path : List String) : WatcherState :=
  if path ∈ st.modified_paths then st
  else
    let mp := st.modified_paths ++ [path]
    let q := dequeAppend QUEUE_MAXLEN st.path_change_queue path
    let mp := if is_dir path then (parentsOf path).foldl addIfAbsent mp else mp
    { modified_paths := mp, path_change_queue := q }

/-! ### Ignore patterns (src/utils/ignore_patterns.py)

`fnmatch.fnmatch` is modelled by compiling the glob into tokens (star, any
char, literal, character class — the same forms `fnmatch.translate`
recognises) and matching tokens against the path characters. -/

/-- A compiled glob token. -/
inductive GlobTok where
  | star
  | anyChar
  | lit (c : Char)
  | charSet (negated : Bool) (chars : List Char)
deriving DecidableEq

/-- Scan for the closing `]` of a character class; `acc` holds the class
characters seen so far, reversed. -/
def findClose (acc : List Char) : List Char → Option (List Char × List Char)
  | [] => none
  | c :: cs => if c = ']' then some (acc.reverse, cs) else findClose (c :: acc) cs

/-- Strip the negation marker of a character class (`[!...]`). -/
def clsStart : List Char → Bool × List Char
  | '!' :: rest => (true, rest)
  | l => (false, l)

/-- Collect the members of a character class up to its closing `]`; a `]`
in first position is a literal member, as in `fnmatch.translate`. -/
def clsBody : List Char → Option (List Char × List Char)
  | ']' :: rest => findClose [']'] rest
  | l => findClose [] l

/-- Parse a character class body (the characters after `[`), following
`fnmatch.translate`: a leading `!` negates; a `]` right after that is a
literal member; an unterminated class makes the `[` literal (`none`). -/
def parseCls (l : List Char) : Option (Bool × List Char × List Char) :=
  match clsBody (clsStart l).2 with
  | none => none
  | some (cls, rest) => some ((clsStart l).1, cls, rest)

/-- Membership of a character in a class, with `a-b` ranges as in the regexes
`fnmatch.translate` produces; a trailing or leading `-` is a literal member. -/
def inClsChars : List Char → Char → Bool
  | [], _ => false
  | a :: '-' :: b :: rest, c => (decide (a ≤ c) && decide (c ≤ b)) || inClsChars rest c
  | a :: rest, c => (a = c) || inClsChars rest c

/-- Compile a glob pattern into tokens, by structural recursion on a step
counter; each step consumes at least one pattern character, so the pattern
length (passed by `compileGlob`) bounds the recursion depth. -/
def compileGlobAux : Nat → List Char → List GlobTok
  | 0, _ => []
  | _, [] => []
  | fuel + 1, '*' :: ps => .star :: compileGlobAux fuel ps
  | fuel + 1, '?' :: ps => .anyChar :: compileGlobAux fuel ps
  | fuel + 1, '[' :: ps =>
    match parseCls ps with
    | none => .lit '[' :: compileGlobAux fuel ps
    | some (neg, cls, rest) => .charSet neg cls :: compileGlobAux fuel rest
  | fuel + 1, c :: ps => .lit c :: compileGlobAux fuel ps

/-- Compile a glob pattern into tokens. -/
def compileGlob (l : List Char) : List GlobTok :=
  compileGlobAux l.length l

/-- Match compiled glob tokens against a character list; `*` matches any
(possibly empty) run of characters, including `/`, as in `fnmatch`. -/
def tokMatch : List GlobTok → List Char → Bool
  | [], s => s.isEmpty
  | .star :: ts, s =>
    tokMatch ts s ||
      (match s with
       | [] => false
       | _ :: s2 => tokMatch (.star :: ts) s2)
  | .anyChar :: ts, s =>
    (match s with
     | [] => false
     | _ :: s2 => tokMatch ts s2)
  | .lit c :: ts, s =>
    (match s with
     | [] => false
     | d :: s2 => (c = d) && tokMatch ts s2)
  | .charSet neg cls :: ts, s =>
    (match s with
     | [] => false
     | d :: s2 =>
       (if neg then !(inClsChars cls d) else inClsChars cls d) && tokMatch ts s2)
termination_by ts s => (s.length, ts.length)

/-- Models `fnmatch.fnmatch(name, pat)` (case-sensitive, as on POSIX). -/
def fnmatch (name pat : String) : Bool :=
  tokMatch (compileGlob pat.data) name.data

/-- The always-ignored directory names (src/utils/ignore_patterns.py lines
31-44). -/
def common_ignored_dirs : List String :=
  ["node_modules", ".git", ".svn", ".hg", "__pycache__", ".vs", ".vscode",
   "bin", "obj", "build", "dist", "out"]

/-- Models Python `line.strip()`. -/
def pythonStrip (s : String) : String :=
  let ws : Char → Bool := fun c => c = ' ' ∨ c = '\t' ∨ c = '\n' ∨ c = '\r'
  String.mk (((s.data.dropWhile ws).reverse.dropWhile ws).reverse)

/-- Models Python `s.rstrip('/')`. -/
def rstripSlash (s : String) : String :=
  String.mk ((s.data.reverse.dropWhile (fun c => c = '/')).reverse)

/-- Processing of one (already stripped) pattern-file line by `load_patterns`
(src/utils/ignore_patterns.py lines 82-114): skip blanks, comments (which
covers the `###` section headers) and `syntax:` markers; append new patterns,
and for a directory pattern `name/` also append `**/name/**`.  The
`regex_patterns` the source builds alongside are not consulted by
`should_ignore` and are not modelled. -/
def processLine (patterns : List String) (line : String) : List String :=
  if line = "" || strStartsWith line "#" || strStartsWith line "syntax:" then
    patterns
  else if patterns.contains line then
    patterns
  else
    let patterns := patterns ++ [line]
    if strEndsWith line "/" then
      let dir_name := rstripSlash line
      let dir_pattern := "**/" ++ dir_name ++ "/**"
      if patterns.contains dir_pattern then patterns else patterns ++ [dir_pattern]
    else
      patterns

/-- Models `IgnorePatternMatcher.load_patterns` (src/utils/ignore_patterns.py
lines 53-121) as a function from the pattern file's contents (`none` when the
file does not exist) to the resulting `self.patterns`.  When the file is
missing the function warns and returns early, leaving the empty pattern list
set up by `__init__` — in particular the common-directory glob patterns are
not added either. -/
def load_patterns (fileLines : Option (List String)) : List String :=
  match fileLines with
  | none => []
  | some lines =>
    let commonPats := common_ignored_dirs.foldl
      (fun pats d => pats ++ ["**/" ++ d ++ "/**", "**/" ++ d ++ "/"]) []
    lines.foldl (fun pats line => processLine pats (pythonStrip line)) commonPats

/-- Models `pathlib.Path(s).parts`: the root `/` is its own part for an
absolute path; empty components collapse. -/
def pathlibParts (s : String) : List String :=
  let comps := (splitSlash s).filter (fun c => c ≠ "")
  if strStartsWith s "/" then "/" :: comps else comps

/-- Joins components back as `str(pathlib.Path(*parts))` does. -/
def joinPathParts : List String → String
  | "/" :: rest => "/" ++ String.intercalate "/" rest
  | l => String.intercalate "/" l

/-- Models Python `pattern[1:]`. -/
def strDropHead (s : String) : String :=
  String.mk s.data.tail

/-- Models `IgnorePatternMatcher.should_ignore` (src/utils/ignore_patterns.py
lines 123-182): (1) any path segment equal to a common ignored directory name
short-circuits to ignore; (2) a matching negation pattern forces keep;
(3) a matching positive pattern ignores; (4) a common directory name embedded
as `/name/` or trailing `/name` ignores; (5) a positive pattern matching any
ancestor prefix of the path ignores. -/
def should_ignore (patterns : List String) (path_str : String) : Bool :=
  if (splitSlash path_str).any (fun part => common_ignored_dirs.contains part) then
    true
  else if patterns.any (fun pattern =>
      strStartsWith pattern "!" && fnmatch path_str (strDropHead pattern)) then
    false
  else if patterns.any (fun pattern =>
      !strStartsWith pattern "!" && fnmatch path_str pattern) then
    true
  else if common_ignored_dirs.any (fun common_dir =>
      strContains path_str ("/" ++ common_dir ++ "/") ||
      strEndsWith path_str ("/" ++ common_dir)) then
    true
  else
    let parts := pathlibParts path_str
    (List.range parts.length).any (fun i =>
      patterns.any (fun pattern =>
        !strStartsWith pattern "!" &&
        fnmatch (joinPathParts (parts.take (i + 1))) pattern))

/-! ### States and stores used by the concrete witnesses -/

/-- The entry dict built by `add_to_file_cache` at src/core/main.py lines
357-363 (named here for convenient reference in proofs). -/
def newEntry (c : String) (now modified_time : Int) : CacheEntry :=
  { content := c, modified_time := modified_time, last_access := now,
    size := utf8Len c.data, access_count := 1 }

/-- The cache state reached by putting `"c"` at `"p"` with mtime 5 from the
initial state at time 0 (used by the C2 witness). -/
def freshDemoState : CacheState :=
  { file_cache := [("p", newEntry "c" 0 5)]
    file_cache_size := 1
    last_cache_cleanup := 0 }

/-- The actual bytes held by a cache state versus its size counter: the
counter dominates. -/
def sizeBound (st : CacheState) : Prop :=
  (sumSizes st.file_cache : Int) ≤ st.file_cache_size

/-- The accounting equality: the size counter equals the held bytes. -/
def sizeAgree (st : CacheState) : Prop :=
  (sumSizes st.file_cache : Int) = st.file_cache_size

/-- The resource invariant of the cache: the counter dominates the held
bytes, and bytes and entry count are within the configured budgets. -/
def cacheInv (st : CacheState) : Prop :=
  sizeBound st
  ∧ sumSizes st.file_cache ≤ FILE_CACHE_MAX_SIZE
  ∧ st.file_cache.length ≤ FILE_CACHE_MAX_ENTRIES

/-- A hot cache entry: accessed 10 times, most recently at time 100. -/
def hotEntry : CacheEntry :=
  { content := "", modified_time := 0, last_access := 100, size := 0, access_count := 10 }

/-- A cold cache entry: accessed once, at time 0. -/
def coldEntry : CacheEntry :=
  { content := "", modified_time := 0, last_access := 0, size := 0, access_count := 1 }

/-- 98 filler entries with distinct keys, all cold. -/
def fillerEntries : List (String × CacheEntry) :=
  (List.range 98).map (fun i => (String.mk (List.replicate (i + 1) 'f'), coldEntry))

/-- A cache at the entry limit (100 entries) holding one cold and one hot
entry among cold fillers, with a consistent zero byte counter and a fresh
cleanup stamp. -/
def evictionDemoState : CacheState :=
  { file_cache := ("old", coldEntry) :: fillerEntries ++ [("hot", hotEntry)]
    file_cache_size := 0
    last_cache_cleanup := 100 }

/-- A concrete four-record store for the C6 witness: directory `/a`, its
descendants, and the sibling `/ab`. -/
def recA : FileMetadata :=
  { path := "/a", parent_dir := "/", name := "a", extension := none,
    is_directory := true, size_bytes := none, modified_time := 0 }

/-- Child directory of `/a`. -/
def recAX : FileMetadata :=
  { path := "/a/x", parent_dir := "/a", name := "x", extension := none,
    is_directory := true, size_bytes := none, modified_time := 0 }

/-- Grandchild file of `/a`. -/
def recAXY : FileMetadata :=
  { path := "/a/x/y", parent_dir := "/a/x", name := "y", extension := some ".txt",
    is_directory := false, size_bytes := some 3, modified_time := 0 }

/-- Sibling `/ab`, a non-descendant sharing a string prefix with `/a`. -/
def recAB : FileMetadata :=
  { path := "/ab", parent_dir := "/", name := "ab", extension := none,
    is_directory := false, size_bytes := some 1, modified_time := 0 }

/-- The C6 witness store. -/
def demoDelStore : MetadataStore := [recA, recAX, recAXY, recAB]

/-- A 25-record store matched entirely by the empty filter set, for the C7
witness. -/
def demoSearchStore : MetadataStore :=
  (List.range 25).map (fun i =>
    { path := "/d/" ++ String.mk (List.replicate i 'x')
      parent_dir := "/d"
      name := String.mk (List.replicate i 'x')
      extension := none
      is_directory := false
      size_bytes := some (i : Int)
      modified_time := 0 })

/-- The all-absent filter set (every filter argument left at `None`). -/
def trivialFilters : SearchFilters :=
  { query := none, extensions := none, is_directory := none, min_size := none,
    max_size := none, modified_after := none, modified_before := none,
    path_pfx := none }

/-! ## Helper lemmas -/

theorem isPrefixOf_iff (l₁ l₂ : List String) : l₁.isPrefixOf l₂ = true ↔ l₁ <+: l₂ := by
  induction l₁ generalizing l₂ with
  | nil => simp [List.isPrefixOf]
  | cons a as ih =>
    cases l₂ with
    | nil => simp [List.isPrefixOf]
    | cons b bs =>
      simp [List.isPrefixOf, List.cons_prefix_cons, ih, Bool.and_eq_true, beq_iff_eq]

theorem mem_addIfAbsent_of_mem {l : List (List String)} {x y : List String}
    (h : x ∈ l) : x ∈ addIfAbsent l y := by
  unfold addIfAbsent
  split
  · exact h
  · exact List.mem_append_left _ h

theorem self_mem_addIfAbsent (l : List (List String)) (x : List String) :
    x ∈ addIfAbsent l x := by
  unfold addIfAbsent
  split
  · assumption
  · simp

theorem mem_foldl_addIfAbsent_of_mem {x : List String} :
    ∀ (ps : List (List String)) (l : List (List String)),
      x ∈ l → x ∈ ps.foldl addIfAbsent l
  | [], _, h => h
  | _ :: ps, _, h => mem_foldl_addIfAbsent_of_mem ps _ (mem_addIfAbsent_of_mem h)

theorem mem_foldl_addIfAbsent {x : List String} :
    ∀ (ps : List (List String)) (l : List (List String)),
      x ∈ ps → x ∈ ps.foldl addIfAbsent l := by
  intro ps
  induction ps with
  | nil => intro l h; cases h
  | cons p ps ih =>
    intro l h
    rcases List.mem_cons.mp h with rfl | h'
    · exact mem_foldl_addIfAbsent_of_mem ps _ (self_mem_addIfAbsent l x)
    · exact ih _ h'

@[simp] theorem sumSizes_nil : sumSizes [] = 0 := rfl

@[simp] theorem sumSizes_cons (k : String) (e : CacheEntry)
    (l : List (String × CacheEntry)) :
    sumSizes ((k, e) :: l) = e.size + sumSizes l := by
  simp [sumSizes]

theorem sumSizes_append (l : List (String × CacheEntry)) (k : String)
    (e : CacheEntry) : sumSizes (l ++ [(k, e)]) = sumSizes l + e.size := by
  simp [sumSizes]

theorem eraseKey_of_lookup_none {p : String} :
    ∀ {l : List (String × CacheEntry)}, lookupEntry p l = none → eraseKey p l = l := by
  intro l
  induction l with
  | nil => intro _; rfl
  | cons kv rest ih =>
    obtain ⟨k, e⟩ := kv
    intro h
    rw [lookupEntry] at h
    by_cases hk : k = p
    · rw [if_pos hk] at h; cases h
    · rw [if_neg hk] at h
      rw [eraseKey, if_neg hk, ih h]

theorem sumSizes_eraseKey {p : String} :
    ∀ {l : List (String × CacheEntry)} {e : CacheEntry}, lookupEntry p l = some e →
      sumSizes l = sumSizes (eraseKey p l) + e.size
      ∧ l.length = (eraseKey p l).length + 1 := by
  intro l
  induction l with
  | nil => intro e h; cases h
  | cons kv rest ih =>
    obtain ⟨k, e'⟩ := kv
    intro e h
    rw [lookupEntry] at h
    by_cases hk : k = p
    · rw [if_pos hk] at h
      injection h with h
      subst h
      rw [eraseKey, if_pos hk]
      constructor
      · rw [sumSizes_cons]; omega
      · simp
    · rw [if_neg hk] at h
      obtain ⟨h1, h2⟩ := ih h
      rw [eraseKey, if_neg hk]
      constructor
      · rw [sumSizes_cons, sumSizes_cons]; omega
      · simp only [List.length_cons]; omega

theorem lookupEntry_eraseKey_none {p q : String} :
    ∀ {l : List (String × CacheEntry)}, lookupEntry q l = none →
      lookupEntry q (eraseKey p l) = none := by
  intro l
  induction l with
  | nil => intro _; rfl
  | cons kv rest ih =>
    obtain ⟨k, e⟩ := kv
    intro h
    rw [lookupEntry] at h
    by_cases hq : k = q
    · rw [if_pos hq] at h; cases h
    · rw [if_neg hq] at h
      rw [eraseKey]
      by_cases hp : k = p
      · rw [if_pos hp]; exact h
      · rw [if_neg hp, lookupEntry, if_neg hq]
        exact ih h

theorem lookup_setEntry_self (p : String) (v : CacheEntry) :
    ∀ (l : List (String × CacheEntry)), lookupEntry p (setEntry p v l) = some v := by
  intro l
  induction l with
  | nil => rw [setEntry, lookupEntry, if_pos rfl]
  | cons kv rest ih =>
    obtain ⟨k, e⟩ := kv
    by_cases hk : k = p
    · rw [setEntry, if_pos hk, lookupEntry, if_pos rfl]
    · rw [setEntry, if_neg hk, lookupEntry, if_neg hk]
      exact ih

theorem setEntry_le (p : String) (v : CacheEntry) :
    ∀ (l : List (String × CacheEntry)),
      sumSizes (setEntry p v l) ≤ sumSizes l + v.size
      ∧ (setEntry p v l).length ≤ l.length + 1 := by
  intro l
  induction l with
  | nil =>
    rw [setEntry]
    simp
  | cons kv rest ih =>
    obtain ⟨k, e⟩ := kv
    by_cases hk : k = p
    · rw [setEntry, if_pos hk]
      constructor
      · rw [sumSizes_cons, sumSizes_cons]; omega
      · simp
    · rw [setEntry, if_neg hk]
      obtain ⟨h1, h2⟩ := ih
      constructor
      · rw [sumSizes_cons, sumSizes_cons]; omega
      · simp only [List.length_cons]; omega

theorem setEntry_of_lookup_none {p : String} {v : CacheEntry} :
    ∀ {l : List (String × CacheEntry)}, lookupEntry p l = none →
      setEntry p v l = l ++ [(p, v)] := by
  intro l
  induction l with
  | nil => intro _; rfl
  | cons kv rest ih =>
    obtain ⟨k, e⟩ := kv
    intro h
    rw [lookupEntry] at h
    by_cases hk : k = p
    · rw [if_pos hk] at h; cases h
    · rw [if_neg hk] at h
      rw [setEntry, if_neg hk, ih h, List.cons_append]

theorem setEntry_same_size (p : String) (v : CacheEntry) :
    ∀ {l : List (String × CacheEntry)} {e : CacheEntry},
      lookupEntry p l = some e → v.size = e.size →
      sumSizes (setEntry p v l) = sumSizes l
      ∧ (setEntry p v l).length = l.length := by
  intro l
  induction l with
  | nil => intro e h; cases h
  | cons kv rest ih =>
    obtain ⟨k, e'⟩ := kv
    intro e h hsz
    rw [lookupEntry] at h
    by_cases hk : k = p
    · rw [if_pos hk] at h
      injection h with h
      subst h
      rw [setEntry, if_pos hk]
      constructor
      · rw [sumSizes_cons, sumSizes_cons, hsz]
      · simp
    · rw [if_neg hk] at h
      obtain ⟨h1, h2⟩ := ih h hsz
      rw [setEntry, if_neg hk]
      constructor
      · rw [sumSizes_cons, sumSizes_cons, h1]
      · simp only [List.length_cons, h2]

theorem minByScore_mem {now : Int} :
    ∀ {l : List (String × CacheEntry)} {x : String × CacheEntry},
      minByScore now l = some x → x ∈ l := by
  have aux : ∀ (l : List (String × CacheEntry)) (a : String × CacheEntry),
      l.foldl (fun best y => if evictionScoreLt now y.2 best.2 then y else best) a = a
      ∨ l.foldl (fun best y => if evictionScoreLt now y.2 best.2 then y else best) a ∈ l := by
    intro l
    induction l with
    | nil => intro a; exact Or.inl rfl
    | cons b rest ih =>
      intro a
      rw [List.foldl_cons]
      rcases ih (if evictionScoreLt now b.2 a.2 then b else a) with h | h
      · rw [h]
        by_cases hc : evictionScoreLt now b.2 a.2
        · rw [if_pos hc]
          exact Or.inr (List.mem_cons_self ..)
        · rw [if_neg hc]
          exact Or.inl rfl
      · exact Or.inr (List.mem_cons_of_mem _ h)
  intro l x h
  cases l with
  | nil => cases h
  | cons a rest =>
    rw [minByScore] at h
    injection h with h
    rcases aux rest a with h' | h'
    · rw [h] at h'
      exact h' ▸ List.mem_cons_self ..
    · rw [h] at h'
      exact List.mem_cons_of_mem _ h'

theorem lookup_isSome_of_mem {k : String} {e : CacheEntry} :
    ∀ {l : List (String × CacheEntry)}, (k, e) ∈ l →
      ∃ e', lookupEntry k l = some e' := by
  intro l
  induction l with
  | nil => intro h; cases h
  | cons kv rest ih =>
    obtain ⟨k', e''⟩ := kv
    intro h
    by_cases hk : k' = k
    · exact ⟨e'', by rw [lookupEntry, if_pos hk]⟩
    · rcases List.mem_cons.mp h with heq | hmem
      · injection heq with h1 h2
        exact absurd h1.symm hk
      · obtain ⟨e', he'⟩ := ih hmem
        exact ⟨e', by rw [lookupEntry, if_neg hk]; exact he'⟩

theorem removePath_eq_none {p : String} {st : CacheState}
    (h : lookupEntry p st.file_cache = none) : removePath p st = st := by
  rw [removePath, h]

theorem removePath_eq_some {p : String} {st : CacheState} {e : CacheEntry}
    (h : lookupEntry p st.file_cache = some e) :
    removePath p st =
      { st with
        file_cache := eraseKey p st.file_cache
        file_cache_size := st.file_cache_size - (e.size : Int) } := by
  rw [removePath, h]

theorem get_eq_miss {now : Int} {st : CacheState} {p : String} {t : Int}
    (h : lookupEntry p st.file_cache = none) :
    get_from_file_cache now st p t = (none, st) := by
  rw [get_from_file_cache, h]

theorem get_eq_hit {now : Int} {st : CacheState} {p : String} {t : Int}
    {e : CacheEntry} (h : lookupEntry p st.file_cache = some e)
    (ht : t ≤ e.modified_time) :
    get_from_file_cache now st p t =
      (some e.content,
        { st with
          file_cache := setEntry p
            { e with last_access := now, access_count := e.access_count + 1 }
            st.file_cache }) := by
  rw [get_from_file_cache, h]
  simp [ht]

theorem get_eq_stale {now : Int} {st : CacheState} {p : String} {t : Int}
    {e : CacheEntry} (h : lookupEntry p st.file_cache = some e)
    (ht : ¬ t ≤ e.modified_time) :
    get_from_file_cache now st p t = (none, removePath p st) := by
  rw [get_from_file_cache, h]
  simp [ht]

theorem add_eq_reject {fs : FileSystem} {now : Int} {st : CacheState}
    {p c : String} {t : Int} (h : FILE_CACHE_ENTRY_MAX_SIZE < utf8Len c.data) :
    add_to_file_cache fs now st p c t = (false, st) := by
  unfold add_to_file_cache
  simp [h]

theorem add_eq_accept {fs : FileSystem} {now : Int} {st : CacheState}
    {p c : String} {t : Int} (h : ¬ FILE_CACHE_ENTRY_MAX_SIZE < utf8Len c.data) :
    add_to_file_cache fs now st p c t =
      (true,
        { evictLoop now (utf8Len c.data)
            (cleanup_cache fs now st).file_cache.length (cleanup_cache fs now st) with
          file_cache := setEntry p (newEntry c now t)
            (evictLoop now (utf8Len c.data)
              (cleanup_cache fs now st).file_cache.length
              (cleanup_cache fs now st)).file_cache
          file_cache_size :=
            (evictLoop now (utf8Len c.data)
              (cleanup_cache fs now st).file_cache.length
              (cleanup_cache fs now st)).file_cache_size + (utf8Len c.data : Int) }) := by
  unfold add_to_file_cache
  simp [h, newEntry]

theorem evictLoop_succ_exit {now : Int} {cs : Nat} {fuel : Nat} {st : CacheState}
    (h : ¬ ((FILE_CACHE_MAX_ENTRIES ≤ st.file_cache.length ∨
        (FILE_CACHE_MAX_SIZE : Int) < st.file_cache_size + (cs : Int)) ∧
        st.file_cache ≠ [])) :
    evictLoop now cs (fuel + 1) st = st := by
  rw [evictLoop, if_neg h]

theorem evictLoop_succ_step {now : Int} {cs : Nat} {fuel : Nat} {st : CacheState}
    {k : String} {e : CacheEntry}
    (hc : (FILE_CACHE_MAX_ENTRIES ≤ st.file_cache.length ∨
        (FILE_CACHE_MAX_SIZE : Int) < st.file_cache_size + (cs : Int)) ∧
        st.file_cache ≠ [])
    (hm : minByScore now st.file_cache = some (k, e)) :
    evictLoop now cs (fuel + 1) st = evictLoop now cs fuel (removePath k st) := by
  rw [evictLoop, if_pos hc, hm]

theorem foldl_removePath_pres {P : CacheState → Prop}
    (hP : ∀ (p : String) (st : CacheState), P st → P (removePath p st)) :
    ∀ (ps : List String) (st : CacheState), P st →
      P (ps.foldl (fun s p => removePath p s) st) := by
  intro ps
  induction ps with
  | nil => intro st h; exact h
  | cons p ps ih => intro st h; exact ih _ (hP p st h)

theorem cleanup_pres {P : CacheState → Prop}
    (hP : ∀ (p : String) (st : CacheState), P st → P (removePath p st))
    (hlast : ∀ (st : CacheState) (t : Int), P st →
      P { st with last_cache_cleanup := t }) :
    ∀ (fs : FileSystem) (now : Int) (st : CacheState),
      P st → P (cleanup_cache fs now st) := by
  intro fs now st h
  rw [cleanup_cache]
  split
  · exact h
  · exact foldl_removePath_pres hP _ _ (hlast st now h)

theorem evictLoop_pres {P : CacheState → Prop}
    (hP : ∀ (p : String) (st : CacheState), P st → P (removePath p st)) :
    ∀ (fuel : Nat) (now : Int) (cs : Nat) (st : CacheState),
      P st → P (evictLoop now cs fuel st) := by
  intro fuel
  induction fuel with
  | zero => intro now cs st h; exact h
  | succ n ih =>
    intro now cs st h
    by_cases hc : (FILE_CACHE_MAX_ENTRIES ≤ st.file_cache.length ∨
        (FILE_CACHE_MAX_SIZE : Int) < st.file_cache_size + (cs : Int)) ∧
        st.file_cache ≠ []
    · rcases hl : st.file_cache with _ | ⟨⟨k0, e0⟩, rest⟩
      · exact absurd hl hc.2
      · have hm : ∃ x, minByScore now st.file_cache = some x := by
          rw [hl, minByScore]
          exact ⟨_, rfl⟩
        obtain ⟨⟨k, e⟩, hm⟩ := hm
        rw [evictLoop_succ_step hc hm]
        exact ih now cs _ (hP k st h)
    · rw [evictLoop_succ_exit hc]
      exact h

theorem removePath_sizeBound (p : String) (st : CacheState) (h : sizeBound st) :
    sizeBound (removePath p st) := by
  rcases hl : lookupEntry p st.file_cache with _ | e
  · rw [removePath_eq_none hl]; exact h
  · rw [removePath_eq_some hl]
    obtain ⟨h1, -⟩ := sumSizes_eraseKey hl
    unfold sizeBound at h
    show (sumSizes (eraseKey p st.file_cache) : Int)
      ≤ st.file_cache_size - (e.size : Int)
    omega

theorem removePath_sizeAgree (p : String) (st : CacheState) (h : sizeAgree st) :
    sizeAgree (removePath p st) := by
  rcases hl : lookupEntry p st.file_cache with _ | e
  · rw [removePath_eq_none hl]; exact h
  · rw [removePath_eq_some hl]
    obtain ⟨h1, -⟩ := sumSizes_eraseKey hl
    unfold sizeAgree at h
    show (sumSizes (eraseKey p st.file_cache) : Int)
      = st.file_cache_size - (e.size : Int)
    omega

theorem removePath_sum_le (p : String) (st : CacheState) :
    sumSizes (removePath p st).file_cache ≤ sumSizes st.file_cache := by
  rcases hl : lookupEntry p st.file_cache with _ | e
  · rw [removePath_eq_none hl]
  · rw [removePath_eq_some hl]
    obtain ⟨h1, -⟩ := sumSizes_eraseKey hl
    show sumSizes (eraseKey p st.file_cache) ≤ sumSizes st.file_cache
    omega

theorem removePath_length_le (p : String) (st : CacheState) :
    (removePath p st).file_cache.length ≤ st.file_cache.length := by
  rcases hl : lookupEntry p st.file_cache with _ | e
  · rw [removePath_eq_none hl]
  · rw [removePath_eq_some hl]
    obtain ⟨-, h2⟩ := sumSizes_eraseKey hl
    show (eraseKey p st.file_cache).length ≤ st.file_cache.length
    omega

theorem removePath_lookup_none (p q : String) (st : CacheState)
    (h : lookupEntry q st.file_cache = none) :
    lookupEntry q (removePath p st).file_cache = none := by
  rcases hl : lookupEntry p st.file_cache with _ | e
  · rw [removePath_eq_none hl]; exact h
  · rw [removePath_eq_some hl]
    exact lookupEntry_eraseKey_none h

theorem removePath_cacheInv (p : String) (st : CacheState) (h : cacheInv st) :
    cacheInv (removePath p st) := by
  obtain ⟨h1, h2, h3⟩ := h
  refine ⟨removePath_sizeBound p st h1, ?_, ?_⟩
  · exact le_trans (removePath_sum_le p st) h2
  · exact le_trans (removePath_length_le p st) h3

theorem evictLoop_exit (now : Int) (cs : Nat) :
    ∀ (fuel : Nat) (st : CacheState), st.file_cache.length ≤ fuel →
      ((evictLoop now cs fuel st).file_cache.length < FILE_CACHE_MAX_ENTRIES ∧
        (evictLoop now cs fuel st).file_cache_size + (cs : Int)
          ≤ (FILE_CACHE_MAX_SIZE : Int))
      ∨ (evictLoop now cs fuel st).file_cache = [] := by
  intro fuel
  induction fuel with
  | zero =>
    intro st hlen
    right
    exact List.length_eq_zero.mp (Nat.le_zero.mp hlen)
  | succ n ih =>
    intro st hlen
    by_cases hc : (FILE_CACHE_MAX_ENTRIES ≤ st.file_cache.length ∨
        (FILE_CACHE_MAX_SIZE : Int) < st.file_cache_size + (cs : Int)) ∧
        st.file_cache ≠ []
    · rcases hl : st.file_cache with _ | ⟨⟨k0, e0⟩, rest⟩
      · exact absurd hl hc.2
      · have hm : ∃ x, minByScore now st.file_cache = some x := by
          rw [hl, minByScore]
          exact ⟨_, rfl⟩
        obtain ⟨⟨k, e⟩, hm⟩ := hm
        rw [evictLoop_succ_step hc hm]
        apply ih
        obtain ⟨e', he'⟩ := lookup_isSome_of_mem (minByScore_mem hm)
        obtain ⟨-, h2⟩ := sumSizes_eraseKey he'
        rw [removePath_eq_some he']
        show (eraseKey k st.file_cache).length ≤ n
        omega
    · rw [evictLoop_succ_exit hc]
      rw [not_and_or, not_or] at hc
      rcases hc with ⟨hc1, hc2⟩ | hc
      · left
        omega
      · right
        exact not_not.mp hc

theorem cleanup_cacheInv (fs : FileSystem) (now : Int) (st : CacheState)
    (h : cacheInv st) : cacheInv (cleanup_cache fs now st) :=
  cleanup_pres removePath_cacheInv (fun _ _ hp => hp) fs now st h

theorem evictLoop_cacheInv (fuel : Nat) (now : Int) (cs : Nat) (st : CacheState)
    (h : cacheInv st) : cacheInv (evictLoop now cs fuel st) :=
  evictLoop_pres removePath_cacheInv fuel now cs st h

theorem add_cacheInv (fs : FileSystem) (now : Int) (st : CacheState)
    (p c : String) (t : Int) (h : cacheInv st) :
    cacheInv (add_to_file_cache fs now st p c t).2 := by
  by_cases hbig : FILE_CACHE_ENTRY_MAX_SIZE < utf8Len c.data
  · rw [add_eq_reject hbig]
    exact h
  · rw [add_eq_accept hbig]
    set cs := utf8Len c.data with hcs
    set st2 := evictLoop now cs
      (cleanup_cache fs now st).file_cache.length (cleanup_cache fs now st) with hst2
    have h2 : cacheInv st2 :=
      evictLoop_cacheInv _ now cs _ (cleanup_cacheInv fs now st h)
    have hexit := evictLoop_exit now cs
      (cleanup_cache fs now st).file_cache.length (cleanup_cache fs now st) le_rfl
    rw [← hst2] at hexit
    obtain ⟨hb2, hs2, hl2⟩ := h2
    have hset := setEntry_le p (newEntry c now t) st2.file_cache
    have hsz : (newEntry c now t).size = cs := rfl
    rw [hsz] at hset
    unfold sizeBound at hb2
    rcases hexit with ⟨hlt, hle⟩ | hnil
    · refine ⟨?_, ?_, ?_⟩
      · show (sumSizes (setEntry p (newEntry c now t) st2.file_cache) : Int)
          ≤ st2.file_cache_size + (cs : Int)
        omega
      · show sumSizes (setEntry p (newEntry c now t) st2.file_cache)
          ≤ FILE_CACHE_MAX_SIZE
        omega
      · show (setEntry p (newEntry c now t) st2.file_cache).length
          ≤ FILE_CACHE_MAX_ENTRIES
        omega
    · have hmax : FILE_CACHE_ENTRY_MAX_SIZE ≤ FILE_CACHE_MAX_SIZE := by decide
      have hone : 1 ≤ FILE_CACHE_MAX_ENTRIES := by decide
      have hsum0 : sumSizes st2.file_cache = 0 := by rw [hnil]; rfl
      have hset0 : setEntry p (newEntry c now t) st2.file_cache
          = [(p, newEntry c now t)] := by
        rw [hnil]
        rfl
      refine ⟨?_, ?_, ?_⟩
      · show (sumSizes (setEntry p (newEntry c now t) st2.file_cache) : Int)
          ≤ st2.file_cache_size + (cs : Int)
        rw [hset0, sumSizes_cons, sumSizes_nil, hsz]
        omega
      · show sumSizes (setEntry p (newEntry c now t) st2.file_cache)
          ≤ FILE_CACHE_MAX_SIZE
        rw [hset0, sumSizes_cons, sumSizes_nil, hsz]
        omega
      · show (setEntry p (newEntry c now t) st2.file_cache).length
          ≤ FILE_CACHE_MAX_ENTRIES
        rw [hset0]
        simpa using hone

theorem get_cacheInv (now : Int) (st : CacheState) (p : String) (t : Int)
    (h : cacheInv st) : cacheInv (get_from_file_cache now st p t).2 := by
  rcases hl : lookupEntry p st.file_cache with _ | e
  · rw [get_eq_miss hl]
    exact h
  · by_cases ht : t ≤ e.modified_time
    · rw [get_eq_hit hl ht]
      obtain ⟨hsum, hlen⟩ := setEntry_same_size p
        { e with last_access := now, access_count := e.access_count + 1 } hl rfl
      obtain ⟨h1, h2, h3⟩ := h
      unfold cacheInv sizeBound at *
      constructor
      · show (sumSizes (setEntry p _ st.file_cache) : Int) ≤ st.file_cache_size
        omega
      constructor
      · show sumSizes (setEntry p _ st.file_cache) ≤ FILE_CACHE_MAX_SIZE
        omega
      · show (setEntry p _ st.file_cache).length ≤ FILE_CACHE_MAX_ENTRIES
        omega
    · rw [get_eq_stale hl ht]
      exact removePath_cacheInv p st h

theorem invalidate_cacheInv (st : CacheState) (p : String) (h : cacheInv st) :
    cacheInv (invalidate_cache_for_path st p) := by
  unfold invalidate_cache_for_path
  exact foldl_removePath_pres removePath_cacheInv _ _ (removePath_cacheInv p st h)

theorem runOp_cacheInv (st : CacheState) (op : CacheOp) (h : cacheInv st) :
    cacheInv (runOp st op) := by
  cases op with
  | put fs now p c t => exact add_cacheInv fs now st p c t h
  | get now p t => exact get_cacheInv now st p t h
  | invalidate p => exact invalidate_cacheInv st p h
  | cleanup fs now => exact cleanup_cacheInv fs now st h

theorem runOps_cacheInv (ops : List CacheOp) (st : CacheState) (h : cacheInv st) :
    cacheInv (runOps ops st) := by
  induction ops generalizing st with
  | nil => exact h
  | cons op ops ih => exact ih _ (runOp_cacheInv st op h)

theorem initial_cacheInv (t0 : Int) : cacheInv (initialCacheState t0) := by
  refine ⟨?_, ?_, ?_⟩
  · show ((0 : Nat) : Int) ≤ (0 : Int)
    omega
  · show (0 : Nat) ≤ FILE_CACHE_MAX_SIZE
    exact Nat.zero_le _
  · show (0 : Nat) ≤ FILE_CACHE_MAX_ENTRIES
    exact Nat.zero_le _

theorem utf8Len_replicate (n : Nat) : utf8Len (List.replicate n 'a') = n := by
  induction n with
  | zero => rfl
  | succ n ih =>
    rw [List.replicate_succ]
    show Char.utf8Size 'a' + utf8Len (List.replicate n 'a') = n + 1
    rw [ih, show Char.utf8Size 'a' = 1 from rfl]
    omega

/-! ## Claim theorems -/

/-- C1: for every requested path, `normalize_path` succeeds and returns the
resolved absolute path iff the resolved, user-expanded, `..`-free absolute
form of the request is equal to or a descendant of some configured allowed
root, and fails with AccessDenied (the 403 response, modelled by `none`)
otherwise — in particular whenever `../` traversal resolves the request
outside every root. -/
theorem normalize_path_containment (allowed : List (List String))
    (cwd home : List String) (p : RawPath) :
    (∀ r, normalize_path allowed cwd home p = some r ↔
        (r = resolvePath cwd (expanduser home p) ∧ ∃ a ∈ allowed, a <+: r))
    ∧ (normalize_path allowed cwd home p = none ↔
        ∀ a ∈ allowed, ¬ a <+: resolvePath cwd (expanduser home p)) := by
  by_cases hc : (allowed.any
      (fun a => relativeToOk (resolvePath cwd (expanduser home p)) a)) = true
  · have hn : normalize_path allowed cwd home p
        = some (resolvePath cwd (expanduser home p)) := by
      unfold normalize_path
      exact if_pos hc
    rw [List.any_eq_true] at hc
    obtain ⟨a, ha, hpre⟩ := hc
    rw [relativeToOk, isPrefixOf_iff] at hpre
    constructor
    · intro r
      rw [hn]
      constructor
      · intro hr
        injection hr with hr
        exact ⟨hr.symm, a, ha, hr ▸ hpre⟩
      · rintro ⟨rfl, -⟩
        rfl
    · rw [hn]
      constructor
      · intro hr
        cases hr
      · intro hall
        exact absurd hpre (hall a ha)
  · have hn : normalize_path allowed cwd home p = none := by
      unfold normalize_path
      exact if_neg hc
    rw [List.any_eq_true] at hc
    constructor
    · intro r
      rw [hn]
      constructor
      · intro hr
        cases hr
      · rintro ⟨rfl, a, ha, hpre⟩
        exact absurd ⟨a, ha, by rw [relativeToOk, isPrefixOf_iff]; exact hpre⟩ hc
    · rw [hn]
      constructor
      · intro _ a ha hpre
        exact absurd ⟨a, ha, by rw [relativeToOk, isPrefixOf_iff]; exact hpre⟩ hc
      · intro _
        rfl

/-- Witness for C1 at concrete inputs: a path inside the allowed root
resolves and is accepted; a `../../` traversal escaping the root is denied. -/
theorem normalize_path_containment_witness :
    (["app", "testdir"] : List String) <+: ["app", "testdir", "x"]
    ∧ normalize_path [["app", "testdir"]] ["cwd"] ["home", "u"]
        ⟨true, ["app", "testdir", "x"]⟩ = some ["app", "testdir", "x"]
    ∧ normalize_path [["app", "testdir"]] ["cwd"] ["home", "u"]
        ⟨true, ["app", "testdir", "..", "..", "etc", "passwd"]⟩ = none := by
  refine ⟨by decide, ?_, ?_⟩
  · exact ((normalize_path_containment [["app", "testdir"]] ["cwd"] ["home", "u"]
      ⟨true, ["app", "testdir", "x"]⟩).1 ["app", "testdir", "x"]).mpr
      ⟨by decide, ["app", "testdir"], by decide, by decide⟩
  · exact (normalize_path_containment [["app", "testdir"]] ["cwd"] ["home", "u"]
      ⟨true, ["app", "testdir", "..", "..", "etc", "passwd"]⟩).2.mpr (by decide)

/-- C2: after an accepted `add_to_file_cache (p, c, t1)`, a
`get_from_file_cache (p, t2)` returns `c` iff `t2 ≤ t1`; and whenever a get
finds an entry whose stored `modified_time` is older than the queried mtime,
the result is a miss and the stale entry is deleted with its recorded size
subtracted from the aggregate counter. -/
theorem cache_freshness (fs : FileSystem) (now : Int) (st : CacheState)
    (p c : String) (t1 : Int) (st' : CacheState)
    (hadd : add_to_file_cache fs now st p c t1 = (true, st')) :
    (∀ t2 now2 : Int,
      ((get_from_file_cache now2 st' p t2).1 = some c ↔ t2 ≤ t1))
    ∧ (∀ (st0 : CacheState) (q : String) (e : CacheEntry) (t2 now2 : Int),
        lookupEntry q st0.file_cache = some e → e.modified_time < t2 →
        get_from_file_cache now2 st0 q t2
          = (none,
            { st0 with
              file_cache := eraseKey q st0.file_cache
              file_cache_size := st0.file_cache_size - (e.size : Int) })) := by
  constructor
  · intro t2 now2
    by_cases hbig : FILE_CACHE_ENTRY_MAX_SIZE < utf8Len c.data
    · rw [add_eq_reject hbig] at hadd
      exact absurd (congrArg Prod.fst hadd) (by simp)
    · rw [add_eq_accept hbig] at hadd
      have hst' := congrArg Prod.snd hadd
      dsimp only at hst'
      have hlook : lookupEntry p st'.file_cache = some (newEntry c now t1) := by
        rw [← hst']
        exact lookup_setEntry_self ..
      by_cases ht : t2 ≤ t1
      · rw [get_eq_hit hlook ht]
        simp [newEntry, ht]
      · rw [get_eq_stale hlook (by show ¬ t2 ≤ t1; omega)]
        simp [ht]
  · intro st0 q e t2 now2 hl ht
    rw [get_eq_stale hl (by omega), removePath_eq_some hl]

/-- Witness for C2: a concrete accepted put at mtime 5, read back with an
older and a newer mtime, plus a concrete stale-hit removal. -/
theorem cache_freshness_witness :
    add_to_file_cache [] 0 (initialCacheState 0) "p" "c" 5 = (true, freshDemoState)
    ∧ ((get_from_file_cache 9 freshDemoState "p" 3).1 = some "c" ↔ (3 : Int) ≤ 5)
    ∧ ((get_from_file_cache 9 freshDemoState "p" 7).1 = some "c" ↔ (7 : Int) ≤ 5)
    ∧ lookupEntry "p" freshDemoState.file_cache = some (newEntry "c" 0 5)
    ∧ (newEntry "c" 0 5).modified_time < 7
    ∧ get_from_file_cache 9 freshDemoState "p" 7
      = (none,
        { freshDemoState with
          file_cache := eraseKey "p" freshDemoState.file_cache
          file_cache_size := freshDemoState.file_cache_size
            - ((newEntry "c" 0 5).size : Int) }) := by
  have hadd : add_to_file_cache [] 0 (initialCacheState 0) "p" "c" 5
      = (true, freshDemoState) := by decide
  have hlook : lookupEntry "p" freshDemoState.file_cache = some (newEntry "c" 0 5) := by
    decide
  have h := cache_freshness [] 0 (initialCacheState 0) "p" "c" 5 _ hadd
  exact ⟨hadd, h.1 3 9, h.1 7 9, hlook, by decide,
    h.2 freshDemoState "p" (newEntry "c" 0 5) 7 9 hlook (by decide)⟩

/-- C3: the claim says the eviction choice (ascending score
`(now - last_access) / access_count`) favors evicting infrequently and
least-recently used entries.  Taking the minimum of that score does the
opposite: at this concrete full cache, `add_to_file_cache` evicts the entry
`"hot"` — accessed more recently and more frequently than the retained
`"old"` — contradicting the claim (and the code's own comment
"Find oldest entry"). -/
theorem eviction_choice_counterexample :
    evictionDemoState.file_cache.length = FILE_CACHE_MAX_ENTRIES
    ∧ ("old", coldEntry) ∈ evictionDemoState.file_cache
    ∧ ("hot", hotEntry) ∈ evictionDemoState.file_cache
    ∧ coldEntry.last_access < hotEntry.last_access
    ∧ coldEntry.access_count < hotEntry.access_count
    ∧ lookupEntry "hot"
        ((add_to_file_cache [] 100 evictionDemoState "new" "x" 100).2).file_cache
        = none
    ∧ lookupEntry "old"
        ((add_to_file_cache [] 100 evictionDemoState "new" "x" 100).2).file_cache
        = some coldEntry := by
  set_option maxRecDepth 100000 in decide

/-- C4: after any sequence of cache operations starting from the initial
state, the bytes actually cached stay within `FILE_CACHE_MAX_SIZE` and the
entry count within `FILE_CACHE_MAX_ENTRIES`; and any content larger than
`FILE_CACHE_ENTRY_MAX_SIZE` is rejected with `False`, leaving the cache
untouched. -/
theorem cache_bounds (ops : List CacheOp) (t0 : Int) :
    sumSizes (runOps ops (initialCacheState t0)).file_cache ≤ FILE_CACHE_MAX_SIZE
    ∧ (runOps ops (initialCacheState t0)).file_cache.length ≤ FILE_CACHE_MAX_ENTRIES
    ∧ (∀ (fs : FileSystem) (now : Int) (st : CacheState) (p c : String) (t : Int),
        FILE_CACHE_ENTRY_MAX_SIZE < utf8Len c.data →
        add_to_file_cache fs now st p c t = (false, st)) := by
  have h := runOps_cacheInv ops (initialCacheState t0) (initial_cacheInv t0)
  exact ⟨h.2.1, h.2.2, fun fs now st p c t hbig => add_eq_reject hbig⟩

/-- Witness for C4: a put of an oversized (10 MB + 1 byte) content is
rejected and a small concrete operation sequence respects the bounds. -/
theorem cache_bounds_witness :
    FILE_CACHE_ENTRY_MAX_SIZE
      < utf8Len (String.mk (List.replicate (FILE_CACHE_ENTRY_MAX_SIZE + 1) 'a')).data
    ∧ add_to_file_cache [] 0 (initialCacheState 0) "p"
        (String.mk (List.replicate (FILE_CACHE_ENTRY_MAX_SIZE + 1) 'a')) 0
      = (false, initialCacheState 0)
    ∧ sumSizes (runOps [CacheOp.put [] 0 "q" "hi" 0]
        (initialCacheState 0)).file_cache ≤ FILE_CACHE_MAX_SIZE := by
  have hbig : FILE_CACHE_ENTRY_MAX_SIZE
      < utf8Len (String.mk (List.replicate (FILE_CACHE_ENTRY_MAX_SIZE + 1) 'a')).data := by
    show FILE_CACHE_ENTRY_MAX_SIZE
      < utf8Len (List.replicate (FILE_CACHE_ENTRY_MAX_SIZE + 1) 'a')
    rw [utf8Len_replicate]
    omega
  exact ⟨hbig,
    (cache_bounds [] 0).2.2 [] 0 (initialCacheState 0) "p" _ 0 hbig,
    (cache_bounds [CacheOp.put [] 0 "q" "hi" 0] 0).1⟩

/-- C10: the claim that `file_cache_size` always equals the sum of the cached
entry sizes is false: `add_to_file_cache` on a path already in the cache adds
the new content size without subtracting the overwritten entry's size.
Putting the same two-byte content twice at one path leaves one entry summing
to 2 bytes while the counter reads 4. -/
theorem cache_size_counter_counterexample :
    (sumSizes ((add_to_file_cache [] 0
        ((add_to_file_cache [] 0 (initialCacheState 0) "p" "ab" 0).2)
        "p" "ab" 0).2).file_cache : Int)
      ≠ ((add_to_file_cache [] 0
        ((add_to_file_cache [] 0 (initialCacheState 0) "p" "ab" 0).2)
        "p" "ab" 0).2).file_cache_size := by
  decide

/-- C10 (amended): every removal path subtracts exactly the removed entry's
recorded size, and get, invalidate and cleanup preserve the accounting
equality; an insert preserves it only when its key is absent, and in general
the counter dominates the sum (`sizeBound`) after any operation sequence. -/
theorem cache_size_accounting :
    (∀ (ops : List CacheOp) (t0 : Int),
      sizeBound (runOps ops (initialCacheState t0)))
    ∧ (∀ (p : String) (st : CacheState) (e : CacheEntry),
        lookupEntry p st.file_cache = some e →
        removePath p st
          = { st with
              file_cache := eraseKey p st.file_cache
              file_cache_size := st.file_cache_size - (e.size : Int) }
        ∧ sumSizes st.file_cache = sumSizes (eraseKey p st.file_cache) + e.size)
    ∧ (∀ (now : Int) (st : CacheState) (p : String) (t : Int),
        sizeAgree st → sizeAgree (get_from_file_cache now st p t).2)
    ∧ (∀ (st : CacheState) (p : String),
        sizeAgree st → sizeAgree (invalidate_cache_for_path st p))
    ∧ (∀ (fs : FileSystem) (now : Int) (st : CacheState),
        sizeAgree st → sizeAgree (cleanup_cache fs now st))
    ∧ (∀ (fs : FileSystem) (now : Int) (st : CacheState) (p c : String) (t : Int),
        sizeAgree st → lookupEntry p st.file_cache = none →
        sizeAgree (add_to_file_cache fs now st p c t).2) := by
  refine ⟨?_, ?_, ?_, ?_, ?_, ?_⟩
  · intro ops t0
    exact (runOps_cacheInv ops (initialCacheState t0) (initial_cacheInv t0)).1
  · intro p st e hl
    exact ⟨removePath_eq_some hl, (sumSizes_eraseKey hl).1⟩
  · intro now st p t hag
    rcases hl : lookupEntry p st.file_cache with _ | e
    · rw [get_eq_miss hl]
      exact hag
    · by_cases ht : t ≤ e.modified_time
      · rw [get_eq_hit hl ht]
        obtain ⟨hsum, -⟩ := setEntry_same_size p
          { e with last_access := now, access_count := e.access_count + 1 } hl rfl
        unfold sizeAgree at hag
        show (sumSizes (setEntry p
          { e with last_access := now, access_count := e.access_count + 1 }
          st.file_cache) : Int) = st.file_cache_size
        omega
      · rw [get_eq_stale hl ht]
        exact removePath_sizeAgree p st hag
  · intro st p hag
    unfold invalidate_cache_for_path
    exact foldl_removePath_pres removePath_sizeAgree _ _ (removePath_sizeAgree p st hag)
  · intro fs now st hag
    exact cleanup_pres removePath_sizeAgree (fun _ _ hp => hp) fs now st hag
  · intro fs now st p c t hag hnone
    by_cases hbig : FILE_CACHE_ENTRY_MAX_SIZE < utf8Len c.data
    · rw [add_eq_reject hbig]
      exact hag
    · have hPrem : ∀ (q : String) (s : CacheState),
          (sizeAgree s ∧ lookupEntry p s.file_cache = none) →
          (sizeAgree (removePath q s) ∧
            lookupEntry p (removePath q s).file_cache = none) :=
        fun q s hs => ⟨removePath_sizeAgree q s hs.1, removePath_lookup_none q p s hs.2⟩
      have h1 := @cleanup_pres
        (fun s => sizeAgree s ∧ lookupEntry p s.file_cache = none)
        hPrem (fun _ _ hs => hs) fs now st ⟨hag, hnone⟩
      have h2 := @evictLoop_pres
        (fun s => sizeAgree s ∧ lookupEntry p s.file_cache = none)
        hPrem (cleanup_cache fs now st).file_cache.length now (utf8Len c.data)
        (cleanup_cache fs now st) h1
      obtain ⟨hag2, hno2⟩ := h2
      rw [add_eq_accept hbig]
      unfold sizeAgree at hag2
      show (sumSizes (setEntry p (newEntry c now t)
          (evictLoop now (utf8Len c.data)
            (cleanup_cache fs now st).file_cache.length
            (cleanup_cache fs now st)).file_cache) : Int)
        = (evictLoop now (utf8Len c.data)
            (cleanup_cache fs now st).file_cache.length
            (cleanup_cache fs now st)).file_cache_size + (utf8Len c.data : Int)
      rw [setEntry_of_lookup_none hno2, sumSizes_append]
      have hsz : (newEntry c now t).size = utf8Len c.data := rfl
      omega

/-- Witness for C10 (amended) at concrete inputs: one put from the empty
state, an exact-subtraction removal of its entry, and an agreeing get. -/
theorem cache_size_accounting_witness :
    sizeBound (runOps [CacheOp.put [] 0 "p" "ab" 0] (initialCacheState 0))
    ∧ lookupEntry "p"
        (runOps [CacheOp.put [] 0 "p" "ab" 0] (initialCacheState 0)).file_cache
        = some (newEntry "ab" 0 0)
    ∧ removePath "p" (runOps [CacheOp.put [] 0 "p" "ab" 0] (initialCacheState 0))
        = { runOps [CacheOp.put [] 0 "p" "ab" 0] (initialCacheState 0) with
            file_cache := eraseKey "p"
              (runOps [CacheOp.put [] 0 "p" "ab" 0] (initialCacheState 0)).file_cache
            file_cache_size :=
              (runOps [CacheOp.put [] 0 "p" "ab" 0]
                (initialCacheState 0)).file_cache_size
                - ((newEntry "ab" 0 0).size : Int) }
    ∧ sizeAgree (initialCacheState 0)
    ∧ sizeAgree (get_from_file_cache 1 (initialCacheState 0) "p" 0).2 := by
  have hlook : lookupEntry "p"
      (runOps [CacheOp.put [] 0 "p" "ab" 0] (initialCacheState 0)).file_cache
      = some (newEntry "ab" 0 0) := by decide
  have hag : sizeAgree (initialCacheState 0) := by
    unfold sizeAgree
    decide
  exact ⟨cache_size_accounting.1 [CacheOp.put [] 0 "p" "ab" 0] 0,
    hlook,
    (cache_size_accounting.2.1 "p" _ (newEntry "ab" 0 0) hlook).1,
    hag,
    cache_size_accounting.2.2.1 1 (initialCacheState 0) "p" 0 hag⟩

/-- C5: the claim asserts that `write_file` (when creating a new file),
`create_directory` and `move_path` all clear the `normalize_path` memo.  In
the code, `write_file` tests `not path.exists()` only after the write has
created the file, so the clear never fires for a new file — contradicting the
comment right above it ("Clear the normalize_path cache if this is a new
file") — and `create_directory` contains no clear at all; only `move_path`
clears.  Evaluated at a concrete input: creating a new file or directory
leaves a warm memo intact, while a move clears it. -/
theorem memo_survives_creation :
    write_file_memo ⟨[], [("k", "v")]⟩ "p" = ⟨["p"], [("k", "v")]⟩
    ∧ create_directory_memo ⟨[], [("k", "v")]⟩ "d" = ⟨["d"], [("k", "v")]⟩
    ∧ move_path_memo ⟨["s"], [("k", "v")]⟩ "s" "d" = ⟨["d"], []⟩ := by
  decide

/-- C8: `notify_change` is deduplicated against the pending set (a pending
path changes nothing); an unseen path is added to `modified_paths` and
appended to the bounded FIFO queue, which at capacity drops its oldest entry;
for a directory every ancestor ends up pending without being queued (the
queue receives exactly the one appended path), and for a non-directory the
pending set grows by exactly the path itself. -/
theorem notify_change_spec (is_dir : List String → Bool) (st : WatcherState)
    (path : List String) :
    (path ∈ st.modified_paths → notify_change is_dir st path = st)
    ∧ (path ∉ st.modified_paths →
        path ∈ (notify_change is_dir st path).modified_paths
        ∧ (notify_change is_dir st path).path_change_queue
            = dequeAppend QUEUE_MAXLEN st.path_change_queue path
        ∧ (st.path_change_queue.length = QUEUE_MAXLEN →
            (notify_change is_dir st path).path_change_queue
              = st.path_change_queue.tail ++ [path])
        ∧ (is_dir path = true →
            ∀ parent ∈ parentsOf path,
              parent ∈ (notify_change is_dir st path).modified_paths)
        ∧ (is_dir path = false →
            (notify_change is_dir st path).modified_paths
              = st.modified_paths ++ [path])) := by
  constructor
  · intro hmem
    unfold notify_change
    exact if_pos hmem
  · intro hmem
    have hn : notify_change is_dir st path =
        { modified_paths :=
            if is_dir path then
              (parentsOf path).foldl addIfAbsent (st.modified_paths ++ [path])
            else st.modified_paths ++ [path]
          path_change_queue := dequeAppend QUEUE_MAXLEN st.path_change_queue path } := by
      unfold notify_change
      rw [if_neg hmem]
    rw [hn]
    refine ⟨?_, rfl, ?_, ?_, ?_⟩
    · by_cases hd : is_dir path
      · simp only [hd, if_true]
        exact mem_foldl_addIfAbsent_of_mem _ _ (List.mem_append_right _ (List.mem_singleton.mpr rfl))
      · simp only [hd, if_false]
        exact List.mem_append_right _ (List.mem_singleton.mpr rfl)
    · intro hfull
      show dequeAppend QUEUE_MAXLEN st.path_change_queue path
          = st.path_change_queue.tail ++ [path]
      unfold dequeAppend
      rw [if_neg (by omega)]
    · intro hd parent hparent
      simp only [hd, if_true]
      exact mem_foldl_addIfAbsent _ _ hparent
    · intro hd
      simp [hd]

/-- Witness for C8 at a concrete input: an unseen directory path arriving at
a watcher state whose queue is exactly at capacity. -/
theorem notify_change_spec_witness :
    (["a", "b"] ∉ ([] : List (List String)))
    ∧ (List.replicate QUEUE_MAXLEN ["x"]).length = QUEUE_MAXLEN
    ∧ (notify_change (fun _ => true) ⟨[], List.replicate QUEUE_MAXLEN ["x"]⟩
        ["a", "b"]).path_change_queue
        = (List.replicate QUEUE_MAXLEN ["x"]).tail ++ [["a", "b"]]
    ∧ ∀ parent ∈ parentsOf ["a", "b"],
        parent ∈ (notify_change (fun _ => true) ⟨[], List.replicate QUEUE_MAXLEN ["x"]⟩
          ["a", "b"]).modified_paths := by
  have hlen : (List.replicate QUEUE_MAXLEN ["x"]).length = QUEUE_MAXLEN :=
    List.length_replicate ..
  have hnm : (["a", "b"] : List String) ∉ ([] : List (List String)) := by
    simp
  have h := (notify_change_spec (fun _ => true)
    ⟨[], List.replicate QUEUE_MAXLEN ["x"]⟩ ["a", "b"]).2 hnm
  exact ⟨hnm, hlen, h.2.2.1 hlen, h.2.2.2.1 rfl⟩

/-- C9: when the ignore-pattern file is missing, `load_patterns` is total
(raises nothing) and yields zero custom patterns, and `should_ignore` still
returns `true` for every path that has one of the always-ignored directory
names as a path segment, because the implicit ignored-directory set lives in
`common_ignored_dirs` independently of the loaded patterns. -/
theorem ignore_missing_pattern_file :
    load_patterns none = []
    ∧ ∀ path_str : String,
        (∃ part ∈ splitSlash path_str, part ∈ common_ignored_dirs) →
        should_ignore (load_patterns none) path_str = true := by
  refine ⟨rfl, ?_⟩
  intro path_str hpart
  have hany : (splitSlash path_str).any
      (fun part => common_ignored_dirs.contains part) = true := by
    rw [List.any_eq_true]
    obtain ⟨part, hmem, hin⟩ := hpart
    exact ⟨part, hmem, List.elem_eq_true_of_mem hin⟩
  unfold should_ignore
  rw [hany]
  rfl

/-- Witness for C9 at the concrete path `a/node_modules/b`. -/
theorem ignore_missing_pattern_file_witness :
    (∃ part ∈ splitSlash "a/node_modules/b", part ∈ common_ignored_dirs)
    ∧ should_ignore (load_patterns none) "a/node_modules/b" = true :=
  ⟨by decide, (ignore_missing_pattern_file).2 "a/node_modules/b" (by decide)⟩

theorem findRecord_eq_none_iff (p : String) (store : MetadataStore) :
    findRecord p store = none ↔ ∀ m ∈ store, m.path ≠ p := by
  induction store with
  | nil => simp [findRecord]
  | cons r rest ih =>
    by_cases hr : r.path = p
    · simp [findRecord, hr]
    · simp [findRecord, hr, ih]

theorem findRecord_some {p : String} {store : MetadataStore} {m : FileMetadata}
    (h : findRecord p store = some m) : m ∈ store ∧ m.path = p := by
  induction store with
  | nil => cases h
  | cons r rest ih =>
    by_cases hr : r.path = p
    · rw [findRecord, if_pos hr] at h
      injection h with h
      exact ⟨h ▸ List.mem_cons_self .., h ▸ hr⟩
    · rw [findRecord, if_neg hr] at h
      obtain ⟨hmem, hpath⟩ := ih h
      exact ⟨List.mem_cons_of_mem _ hmem, hpath⟩

theorem eraseP_path_ne {p : String} :
    ∀ {store : MetadataStore}, (store.map (fun r => r.path)).Nodup →
      ∀ r ∈ store.eraseP (fun r => r.path == p), r.path ≠ p := by
  intro store
  induction store with
  | nil => intro _ r hr; cases hr
  | cons s rest ih =>
    intro hnd r hr
    rw [List.map_cons, List.nodup_cons] at hnd
    by_cases hs : s.path = p
    · rw [List.eraseP_cons_of_pos (by simp [hs])] at hr
      intro hrp
      exact hnd.1 (hs ▸ hrp ▸ List.mem_map_of_mem (fun x => x.path) hr)
    · rw [List.eraseP_cons_of_neg (by simp [hs])] at hr
      rcases List.mem_cons.mp hr with rfl | hr'
      · exact hs
      · exact ih hnd.2 r hr'

/-- C6: `delete_metadata` returns `true` iff a record for the exact path
exists, returns `false` leaving the store unchanged otherwise, removes the
exact record, cascades over every record whose path starts with `p ++ "/"`
exactly when the deleted record was a directory, and retains every record
that is neither the exact path nor such a descendant (so deleting `/a`
spares `/ab`). -/
theorem delete_metadata_spec (p : String) (store : MetadataStore)
    (hnd : (store.map (fun r => r.path)).Nodup) :
    ((delete_metadata p store).1 = true ↔ ∃ m ∈ store, m.path = p)
    ∧ (findRecord p store = none → delete_metadata p store = (false, store))
    ∧ (∀ m, findRecord p store = some m →
        (∀ r ∈ (delete_metadata p store).2, r.path ≠ p)
        ∧ (m.is_directory = true →
            ∀ r ∈ (delete_metadata p store).2,
              strStartsWith r.path (p ++ "/") = false)
        ∧ (m.is_directory = false →
            (delete_metadata p store).2 = store.eraseP (fun r => r.path == p))
        ∧ (∀ r ∈ store, r.path ≠ p →
            strStartsWith r.path (p ++ "/") = false →
            r ∈ (delete_metadata p store).2)) := by
  have heq_none : findRecord p store = none → delete_metadata p store = (false, store) := by
    intro h
    rw [delete_metadata, h]
  have heq_some : ∀ m, findRecord p store = some m →
      delete_metadata p store =
        (true,
          if m.is_directory then
            (store.eraseP (fun r => r.path == p)).filter
              (fun child => !strStartsWith child.path (p ++ "/"))
          else store.eraseP (fun r => r.path == p)) := by
    intro m hf
    rw [delete_metadata, hf]
    by_cases hd : m.is_directory <;> simp [hd]
  refine ⟨?_, heq_none, ?_⟩
  · rcases hf : findRecord p store with _ | m
    · rw [heq_none hf]
      constructor
      · intro h
        exact absurd h (by simp)
      · rintro ⟨m, hm, hp⟩
        rw [findRecord_eq_none_iff] at hf
        exact absurd hp (hf m hm)
    · rw [heq_some m hf]
      have hex : ∃ m ∈ store, m.path = p := by
        obtain ⟨hm, hp⟩ := findRecord_some hf
        exact ⟨m, hm, hp⟩
      exact iff_of_true rfl hex
  · intro m hf
    have hresult : (delete_metadata p store).2 =
        if m.is_directory then
          (store.eraseP (fun r => r.path == p)).filter
            (fun child => !strStartsWith child.path (p ++ "/"))
        else store.eraseP (fun r => r.path == p) := by
      rw [heq_some m hf]
    refine ⟨?_, ?_, ?_, ?_⟩
    · intro r hr
      rw [hresult] at hr
      split at hr
      · exact eraseP_path_ne hnd r (List.mem_filter.mp hr).1
      · exact eraseP_path_ne hnd r hr
    · intro hdir r hr
      rw [hresult, if_pos hdir] at hr
      have := (List.mem_filter.mp hr).2
      simpa using this
    · intro hdir
      rw [hresult, if_neg (by simp [hdir])]
    · intro r hr hrp hpre
      have hmem : r ∈ store.eraseP (fun r => r.path == p) :=
        (List.mem_eraseP_of_neg (by simp [hrp])).mpr hr
      rw [hresult]
      split
      · exact List.mem_filter.mpr ⟨hmem, by simp [hpre]⟩
      · exact hmem

/-- Witness for C6: deleting the directory `/a` on the concrete store. -/
theorem delete_metadata_spec_witness :
    (demoDelStore.map (fun r => r.path)).Nodup
    ∧ ((delete_metadata "/a" demoDelStore).1 = true ↔
        ∃ m ∈ demoDelStore, m.path = "/a")
    ∧ (∀ r ∈ (delete_metadata "/a" demoDelStore).2, r.path ≠ "/a")
    ∧ (∀ r ∈ (delete_metadata "/a" demoDelStore).2,
        strStartsWith r.path ("/a" ++ "/") = false)
    ∧ recAB ∈ (delete_metadata "/a" demoDelStore).2 := by
  have hnd : (demoDelStore.map (fun r => r.path)).Nodup := by decide
  have h := delete_metadata_spec "/a" demoDelStore hnd
  have hf : findRecord "/a" demoDelStore = some recA := by decide
  have h3 := h.2.2 recA hf
  exact ⟨hnd, h.1, h3.1, h3.2.1 (by decide),
    h3.2.2.2 recAB (by decide) (by decide) (by decide)⟩

/-- C7: on a store whose fixed filter matches exactly 25 records, the three
pages `(limit 10, offset 0)`, `(limit 10, offset 10)`, `(limit 10, offset 20)`
have sizes 10, 10 and 5, their concatenation is exactly the filtered result
set (each matching record appears exactly once), and — when the store's paths
are duplicate-free — the pages are pairwise disjoint. -/
theorem search_metadata_pagination (store : MetadataStore) (f : SearchFilters)
    (h25 : (store.filter (matchesFilters f)).length = 25) :
    (search_metadata store f 10 0).length = 10
    ∧ (search_metadata store f 10 10).length = 10
    ∧ (search_metadata store f 10 20).length = 5
    ∧ search_metadata store f 10 0 ++ search_metadata store f 10 10 ++
        search_metadata store f 10 20 = store.filter (matchesFilters f)
    ∧ ((store.map (fun r => r.path)).Nodup →
        (search_metadata store f 10 0).Disjoint (search_metadata store f 10 10)
        ∧ (search_metadata store f 10 0).Disjoint (search_metadata store f 10 20)
        ∧ (search_metadata store f 10 10).Disjoint (search_metadata store f 10 20)) := by
  have hp1 : search_metadata store f 10 0
      = (store.filter (matchesFilters f)).take 10 := by
    rw [search_metadata, List.drop_zero]
  have hp2 : search_metadata store f 10 10
      = ((store.filter (matchesFilters f)).drop 10).take 10 := rfl
  have hp3 : search_metadata store f 10 20
      = (store.filter (matchesFilters f)).drop 20 := by
    rw [search_metadata]
    exact List.take_of_length_le (by rw [List.length_drop, h25]; omega)
  have hdd : ((store.filter (matchesFilters f)).drop 10).drop 10
      = (store.filter (matchesFilters f)).drop 20 := by
    rw [List.drop_drop]
  have hcat : search_metadata store f 10 0 ++ search_metadata store f 10 10 ++
      search_metadata store f 10 20 = store.filter (matchesFilters f) := by
    rw [hp1, hp2, hp3, List.append_assoc, ← hdd, List.take_append_drop,
      List.take_append_drop]
  refine ⟨?_, ?_, ?_, hcat, ?_⟩
  · rw [hp1, List.length_take, h25]
    omega
  · rw [hp2, List.length_take, List.length_drop, h25]
    omega
  · rw [hp3, List.length_drop, h25]
  · intro hnd
    have hres : (store.filter (matchesFilters f)).Nodup :=
      List.Nodup.filter _ (List.Nodup.of_map (fun r => r.path) hnd)
    rw [← hcat] at hres
    rw [List.append_assoc, List.nodup_append] at hres
    obtain ⟨h1, h23, hd123⟩ := hres
    rw [List.nodup_append] at h23
    rw [List.disjoint_append_right] at hd123
    exact ⟨hd123.1, hd123.2, h23.2.2⟩

/-- Witness for C7 on the concrete 25-record store. -/
theorem search_metadata_pagination_witness :
    (demoSearchStore.filter (matchesFilters trivialFilters)).length = 25
    ∧ (demoSearchStore.map (fun r => r.path)).Nodup
    ∧ (search_metadata demoSearchStore trivialFilters 10 0).length = 10
    ∧ (search_metadata demoSearchStore trivialFilters 10 20).length = 5
    ∧ search_metadata demoSearchStore trivialFilters 10 0 ++
        search_metadata demoSearchStore trivialFilters 10 10 ++
        search_metadata demoSearchStore trivialFilters 10 20
        = demoSearchStore.filter (matchesFilters trivialFilters)
    ∧ (search_metadata demoSearchStore trivialFilters 10 0).Disjoint
        (search_metadata demoSearchStore trivialFilters 10 10) := by
  have h25 : (demoSearchStore.filter (matchesFilters trivialFilters)).length = 25 := by
    decide
  have hnd : (demoSearchStore.map (fun r => r.path)).Nodup := by decide
  have h := search_metadata_pagination demoSearchStore trivialFilters h25
  exact ⟨h25, hnd, h.1, h.2.2.1, h.2.2.2.1, (h.2.2.2.2 hnd).1⟩

end Spec2Proof
